import Mathlib

/-!
Verification of the `sort_files.py` file-sorting program.

The program recursively walks a source directory and copies every regular
file into `<destination>/<extension bucket>/<filename>`, where the bucket is
the lowercased suffix after the last dot of the filename (or `unknown`).

This file gives a shallow embedding of the program:

* the pure extension computation `extBucket` mirrors
  `file_path.suffix.lstrip(".").lower()` (with Python `pathlib` suffix
  semantics) followed by the `unknown` fallback (lines 60-63 of the source);
* a path-addressed filesystem model `FileSystem` over which `copy_file` and
  the recursive walker `runEntries` (the body of `read_folder`) are defined,
  with an explicit `IOOutcome` parameter describing whether the byte-level
  I/O of a given copy succeeds or fails, and an explicit `pyTry` combinator
  mirroring the `try`/`except` blocks;
* a model of `main` covering the precondition checks.

`asyncio.gather` interleaves tasks only at `await` points; the model executes
the gathered tasks sequentially in traversal order, which is one admissible
interleaving.
-/

set_option maxHeartbeats 1000000

namespace SortFiles

/-- Index of the last `'.'` in a character list, mirroring Python
`str.rfind('.')` (with `none` for "not found" instead of `-1`). -/
def rfindDot : List Char → Option Nat
  | [] => none
  | c :: cs =>
    match rfindDot cs with
    | some i => some (i + 1)
    | none => if c = '.' then some 0 else none

/-- Python `pathlib.PurePath.suffix` on a file name: the part of the name
from the last dot on, provided the last dot is neither the first nor the
last character of the name; the empty string otherwise. -/
def pathSuffix (name : String) : String :=
  let cs := name.toList
  match rfindDot cs with
  | none => ""
  | some i => if 0 < i ∧ i < cs.length - 1 then String.mk (cs.drop i) else ""

/-- Python `str.lstrip('.')`: drop every leading dot. -/
def lstripDot : List Char → List Char
  | [] => []
  | c :: cs => if c = '.' then lstripDot cs else c :: cs

/-- The extension bucket computed by `copy_file` (source lines 60-63):
`file_path.suffix.lstrip(".").lower()`, replaced by `"unknown"` when the
result is empty. -/
def extBucket (name : String) : String :=
  let ext := String.mk ((lstripDot (pathSuffix name).toList).map Char.toLower)
  if ext = "" then "unknown" else ext

/-- Modelled from the words of claim C3: the bucket is the substring after
the last `'.'` lowercased; it is `"unknown"` when the filename has no dot,
or when its only dot is the leading one. -/
def specBucketC3 (name : String) : String :=
  let cs := name.toList
  match rfindDot cs with
  | none => "unknown"
  | some i =>
    if i = 0 then "unknown"
    else String.mk ((cs.drop (i + 1)).map Char.toLower)

/-- The amended C3 rule: as `specBucketC3`, but additionally `"unknown"`
whenever the substring after the last dot is empty (a trailing dot). -/
def specBucketC3Amended (name : String) : String :=
  let cs := name.toList
  match rfindDot cs with
  | none => "unknown"
  | some i =>
    let s := String.mk ((cs.drop (i + 1)).map Char.toLower)
    if i = 0 ∨ s = "" then "unknown" else s

/-- A filesystem path: the list of path components. -/
abbrev FPath := List String

/-- The mutable filesystem state: the regular files (association list from
path to byte content, first match wins) and the directories. -/
structure FileSystem where
  files : List (FPath × List Nat)
  dirs : List FPath
deriving DecidableEq

/-- Look a file path up in an association list of files (first match). -/
def lookupFS : List (FPath × List Nat) → FPath → Option (List Nat)
  | [], _ => none
  | (q, v) :: rest, p => if q = p then some v else lookupFS rest p

/-- The content of the regular file at `p`, if one exists. -/
def fsFile (fs : FileSystem) (p : FPath) : Option (List Nat) := lookupFS fs.files p

/-- Python `Path.exists()` restricted to the entities the model tracks:
a regular file or a directory exists at the path. -/
def fsExists (fs : FileSystem) (p : FPath) : Prop :=
  (fsFile fs p).isSome = true ∨ p ∈ fs.dirs

instance (fs : FileSystem) (p : FPath) : Decidable (fsExists fs p) := by
  unfold fsExists
  infer_instance

/-- Add one directory to the directory list if absent. -/
def addDir (ds : List FPath) (q : FPath) : List FPath :=
  if q ∈ ds then ds else ds ++ [q]

/-- `Path.mkdir(parents=True, exist_ok=True)`: create the directory and every
missing ancestor. -/
def mkdirP (fs : FileSystem) (p : FPath) : FileSystem :=
  { fs with dirs := p.inits.foldl addDir fs.dirs }

/-- Create the file at `p` (mode `"wb"`) holding `content`; the program only
calls this on paths that its `exists()` check just found absent. -/
def writeFile (fs : FileSystem) (p : FPath) (content : List Nat) : FileSystem :=
  { fs with files := fs.files ++ [(p, content)] }

/-- Outcome of the byte-level I/O of one copy: everything succeeds; the
source `open` raises; the source `read` raises (after the destination was
already opened with `"wb"`, creating it empty); or the destination `write`
raises after `k` bytes reached the file. -/
inductive IOOutcome where
  | ok
  | openSrcFail
  | readFail
  | writeFail (k : Nat)
deriving DecidableEq

/-- The log lines the program can emit, abstracted to their identifying data. -/
inductive LogEvent where
  | warnExists (name bucket : String)
  | infoCopied (name bucket : String)
  | errorCopy (name : String)
  | errorFolder (name : String)
  | errorSource
  | infoCreateDest
  | customStart
  | customEnd
deriving DecidableEq

/-- Python `try`/`except Exception`: run the body; on an exception hand the
exception to the handler. -/
def pyTry {ε α : Type} (body : Except ε α) (handler : ε → α) : α :=
  match body with
  | .ok a => a
  | .error e => handler e

/-- A raised exception: the filesystem state at the moment of the raise, and
the file or folder name appearing in the exception text. -/
structure PyErr where
  fs : FileSystem
  name : String

/-- The body of `copy_file` (source lines 59-83), before the `except` clause:
compute the bucket, create the bucket directory, skip with a warning if the
destination exists, otherwise copy; a failing I/O operation raises, keeping
the state it already produced. -/
def copy_file_raw (destRoot : FPath) (name : String) (content : List Nat)
    (oc : IOOutcome) (fs : FileSystem) : Except PyErr (FileSystem × List LogEvent) :=
  let bucket := extBucket name
  let destPath := destRoot ++ [bucket]
  let fs1 := mkdirP fs destPath
  let destFile := destPath ++ [name]
  if fsExists fs1 destFile then
    .ok (fs1, [.warnExists name bucket])
  else
    match oc with
    | .ok => .ok (writeFile fs1 destFile content, [.infoCopied name bucket])
    | .openSrcFail => .error ⟨fs1, name⟩
    | .readFail => .error ⟨writeFile fs1 destFile [], name⟩
    | .writeFail k => .error ⟨writeFile fs1 destFile (content.take k), name⟩

/-- `copy_file` with its `except` clause (source lines 84-85): every
exception becomes an error-log line, nothing propagates. -/
def copy_file (destRoot : FPath) (name : String) (content : List Nat)
    (oc : IOOutcome) (fs : FileSystem) : FileSystem × List LogEvent :=
  pyTry (copy_file_raw destRoot name content oc fs)
    (fun e => (e.fs, [.errorCopy e.name]))

/-- One directory entry of the source tree: a regular file with its bytes and
the outcome its copy's I/O would have; a subdirectory with a flag saying
whether listing it succeeds; or an entry that is neither a regular file nor
a directory. -/
inductive Entry where
  | file (name : String) (content : List Nat) (oc : IOOutcome)
  | dir (name : String) (ok : Bool) (children : List Entry)
  | other (name : String)

/-- The walk of `read_folder` (source lines 98-107) over the entries of one
directory, executing the gathered tasks in traversal order: a file entry runs
`copy_file`, a subdirectory entry recurses (a subdirectory whose listing
raises contributes one error-log line, mirroring its own `except` clause),
and any other entry is skipped. -/
def runEntries (destRoot : FPath) : List Entry → FileSystem → FileSystem × List LogEvent
  | [], fs => (fs, [])
  | .file n c oc :: es, fs =>
    ((runEntries destRoot es (copy_file destRoot n c oc fs).1).1,
      (copy_file destRoot n c oc fs).2 ++
        (runEntries destRoot es (copy_file destRoot n c oc fs).1).2)
  | .dir _ true cs :: es, fs =>
    ((runEntries destRoot es (runEntries destRoot cs fs).1).1,
      (runEntries destRoot cs fs).2 ++ (runEntries destRoot es (runEntries destRoot cs fs).1).2)
  | .dir dn false _ :: es, fs =>
    ((runEntries destRoot es fs).1,
      [LogEvent.errorFolder dn] ++ (runEntries destRoot es fs).2)
  | .other _ :: es, fs => runEntries destRoot es fs

/-- The body of `read_folder` before its `except` clause: list the directory,
raising if the listing fails, then run the gathered tasks. -/
def read_folder_raw (destRoot : FPath) (dname : String) (ok : Bool)
    (children : List Entry) (fs : FileSystem) :
    Except PyErr (FileSystem × List LogEvent) :=
  if ok then .ok (runEntries destRoot children fs) else .error ⟨fs, dname⟩

/-- `read_folder` with its `except` clause (source lines 108-109). -/
def read_folder (destRoot : FPath) (dname : String) (ok : Bool)
    (children : List Entry) (fs : FileSystem) : FileSystem × List LogEvent :=
  pyTry (read_folder_raw destRoot dname ok children fs)
    (fun e => (e.fs, [.errorFolder e.name]))

/-- All regular files in a list of entries, in traversal order, as
(bucket, filename, content) triples. -/
def filesOf : List Entry → List (String × String × List Nat)
  | [] => []
  | .file n c _ :: es => (extBucket n, n, c) :: filesOf es
  | .dir _ _ cs :: es => filesOf cs ++ filesOf es
  | .other _ :: es => filesOf es

/-- Every directory listing succeeds and the I/O of every copy succeeds. -/
def allOk : List Entry → Bool
  | [] => true
  | .file _ _ .ok :: es => allOk es
  | .file _ _ _ :: _ => false
  | .dir _ ok cs :: es => ok && allOk cs && allOk es
  | .other _ :: es => allOk es

/-- Result of `main`: whether `read_folder` was invoked, whether the
destination directory was created, the final filesystem, and the log. -/
structure MainOut where
  walked : Bool
  destCreated : Bool
  fs : FileSystem
  log : List LogEvent
deriving DecidableEq

/-- `main` (source lines 138-156) after argument parsing: abort with an error
log if the source is not a directory; otherwise create the destination (with
parents) when missing, then run `read_folder` on the source root. -/
def main (srcIsDir : Bool) (srcName : String) (destRoot : FPath) (rootOk : Bool)
    (children : List Entry) (fs0 : FileSystem) : MainOut :=
  if srcIsDir then
    if fsExists fs0 destRoot then
      let r := read_folder destRoot srcName rootOk children fs0
      ⟨true, false, r.1, [.customStart] ++ r.2 ++ [.customEnd]⟩
    else
      let fs1 := mkdirP fs0 destRoot
      let r := read_folder destRoot srcName rootOk children fs1
      ⟨true, true, r.1, [.infoCreateDest, .customStart] ++ r.2 ++ [.customEnd]⟩
  else
    ⟨false, false, fs0, [.errorSource]⟩

theorem rfindDot_lt_length : ∀ (cs : List Char) (i : Nat), rfindDot cs = some i → i < cs.length := by
  intro cs
  induction cs with
  | nil => intro i h; simp [rfindDot] at h
  | cons c cs ih =>
    intro i h
    simp only [rfindDot] at h
    cases hr : rfindDot cs with
    | some j =>
      rw [hr] at h
      cases h
      have := ih j hr
      simpa using Nat.succ_lt_succ this
    | none =>
      rw [hr] at h
      by_cases hc : c = '.'
      · simp [hc] at h
        cases h
        simp
      · simp [hc] at h

theorem rfindDot_none_no_dot : ∀ (cs : List Char), rfindDot cs = none → '.' ∉ cs := by
  intro cs
  induction cs with
  | nil => intro _; simp
  | cons c cs ih =>
    intro h
    simp only [rfindDot] at h
    cases hr : rfindDot cs with
    | some j => rw [hr] at h; cases h
    | none =>
      rw [hr] at h
      by_cases hc : c = '.'
      · simp [hc] at h
      · simp [hc]
        exact ⟨fun hcc => hc hcc.symm, ih hr⟩

theorem rfindDot_drop : ∀ (cs : List Char) (i : Nat), rfindDot cs = some i →
    cs.drop i = '.' :: cs.drop (i + 1) ∧ '.' ∉ cs.drop (i + 1) := by
  intro cs
  induction cs with
  | nil => intro i h; simp [rfindDot] at h
  | cons c cs ih =>
    intro i h
    simp only [rfindDot] at h
    cases hr : rfindDot cs with
    | some j =>
      rw [hr] at h
      cases h
      have := ih j hr
      simpa using this
    | none =>
      rw [hr] at h
      by_cases hc : c = '.'
      · simp [hc] at h
        cases h
        refine ⟨by simp [hc], ?_⟩
        simpa using rfindDot_none_no_dot cs hr
      · simp [hc] at h

theorem lstripDot_of_no_dot (l : List Char) (h : '.' ∉ l) : lstripDot l = l := by
  cases l with
  | nil => rfl
  | cons c cs =>
    have hc : ¬ c = '.' := by
      intro hcc
      exact h (by simp [hcc])
    simp [lstripDot, hc]

theorem string_mk_eq_empty_iff (l : List Char) : String.mk l = "" ↔ l = [] := by
  constructor
  · intro h
    have : (String.mk l).data = ("" : String).data := by rw [h]
    simpa using this
  · intro h; subst h; rfl

theorem lstripDot_cons_dot (cs : List Char) : lstripDot ('.' :: cs) = lstripDot cs := by
  simp [lstripDot]

theorem extBucket_eq_specAmended (name : String) : extBucket name = specBucketC3Amended name := by
  unfold extBucket specBucketC3Amended pathSuffix
  cases hr : rfindDot name.toList with
  | none =>
    simp only [hr]
    have h0 : ("" : String).toList = [] := rfl
    rw [h0]
    simp only [lstripDot, List.map_nil]
    simp only [if_true]
  | some i =>
    have hlt := rfindDot_lt_length name.toList i hr
    have hdrop := rfindDot_drop name.toList i hr
    simp only [hr]
    by_cases h : 0 < i ∧ i < name.toList.length - 1
    · have hi0 : ¬ (i = 0) := by omega
      have hne : name.toList.drop (i + 1) ≠ [] := by
        intro hnil
        have hlen := congrArg List.length hnil
        rw [List.length_drop] at hlen
        simp only [List.length_nil] at hlen
        omega
      rw [if_pos h]
      have htl : (String.mk (name.toList.drop i)).toList = name.toList.drop i := rfl
      rw [htl, hdrop.1, lstripDot_cons_dot, lstripDot_of_no_dot _ hdrop.2]
      have hs : ¬ (String.mk ((name.toList.drop (i + 1)).map Char.toLower) = "") := by
        rw [string_mk_eq_empty_iff]
        simpa using hne
      rw [if_neg hs, if_neg (fun hor => hor.elim hi0 hs)]
    · rw [if_neg h]
      have h0 : ("" : String).toList = [] := rfl
      rw [h0]
      simp only [lstripDot, List.map_nil, if_true]
      have hcase : i = 0 ∨ name.toList.drop (i + 1) = [] := by
        rcases Nat.eq_zero_or_pos i with hi | hi
        · exact Or.inl hi
        · right
          have hle : name.toList.length ≤ i + 1 := by omega
          exact List.drop_eq_nil_of_le hle
      rcases hcase with hi | hnil
      · rw [if_pos (Or.inl hi)]
      · rw [if_pos (Or.inr (by rw [hnil]; rfl))]

theorem lookupFS_append_some (A B : List (FPath × List Nat)) (p : FPath) (v : List Nat)
    (h : lookupFS A p = some v) : lookupFS (A ++ B) p = some v := by
  induction A with
  | nil => simp [lookupFS] at h
  | cons x A ih =>
    obtain ⟨q, w⟩ := x
    simp only [lookupFS, List.cons_append] at h ⊢
    by_cases hq : q = p
    · simpa [hq] using h
    · rw [if_neg hq] at h ⊢
      exact ih h

theorem lookupFS_append_none (A B : List (FPath × List Nat)) (p : FPath)
    (h : lookupFS A p = none) : lookupFS (A ++ B) p = lookupFS B p := by
  induction A with
  | nil => simp
  | cons x A ih =>
    obtain ⟨q, w⟩ := x
    simp only [lookupFS, List.cons_append] at h ⊢
    by_cases hq : q = p
    · simp [hq] at h
    · rw [if_neg hq] at h ⊢
      exact ih h

theorem lookupFS_eq_none_iff (A : List (FPath × List Nat)) (p : FPath) :
    lookupFS A p = none ↔ p ∉ A.map Prod.fst := by
  induction A with
  | nil => simp [lookupFS]
  | cons x A ih =>
    obtain ⟨q, w⟩ := x
    simp only [lookupFS, List.map_cons, List.mem_cons]
    by_cases hq : q = p
    · simp [hq]
    · rw [if_neg hq]
      simp only [ih]
      constructor
      · intro h hc
        rcases hc with hc | hc
        · exact hq hc.symm
        · exact h hc
      · intro h
        exact fun hc => h (Or.inr hc)

theorem lookupFS_append_not_mem (A B : List (FPath × List Nat)) (p : FPath)
    (h : p ∉ B.map Prod.fst) : lookupFS (A ++ B) p = lookupFS A p := by
  cases hA : lookupFS A p with
  | some v => exact lookupFS_append_some A B p v hA
  | none =>
    rw [lookupFS_append_none A B p hA]
    exact (lookupFS_eq_none_iff B p).mpr h

theorem lookupFS_of_nodup (L : List (FPath × List Nat)) (p : FPath) (v : List Nat)
    (hnd : (L.map Prod.fst).Nodup) (hm : (p, v) ∈ L) : lookupFS L p = some v := by
  induction L with
  | nil => simp at hm
  | cons x L ih =>
    obtain ⟨q, w⟩ := x
    simp only [List.map_cons, List.nodup_cons] at hnd
    rcases List.mem_cons.mp hm with h | h
    · obtain ⟨h1, h2⟩ := Prod.mk.injEq .. ▸ h
      simp [lookupFS, h1.symm, h2]
    · have hq : ¬ (q = p) := by
        intro he
        exact hnd.1 (he ▸ List.mem_map_of_mem Prod.fst h)
      simp only [lookupFS, if_neg hq]
      exact ih hnd.2 h

theorem foldl_addDir_mem (l : List FPath) (ds : List FPath) (q : FPath) :
    q ∈ l.foldl addDir ds ↔ q ∈ ds ∨ q ∈ l := by
  induction l generalizing ds with
  | nil => simp
  | cons x l ih =>
    simp only [List.foldl_cons, ih, addDir]
    by_cases hx : x ∈ ds
    · rw [if_pos hx]
      simp only [List.mem_cons]
      constructor
      · intro h
        rcases h with h | h
        · exact Or.inl h
        · exact Or.inr (Or.inr h)
      · intro h
        rcases h with h | h | h
        · exact Or.inl h
        · exact Or.inl (h ▸ hx)
        · exact Or.inr h
    · rw [if_neg hx]
      simp only [List.mem_append, List.mem_singleton, List.mem_cons]
      tauto

theorem foldl_addDir_shape (l : List FPath) (ds : List FPath) :
    ∃ D, l.foldl addDir ds = ds ++ D ∧ ∀ q ∈ D, q ∈ l := by
  induction l generalizing ds with
  | nil => exact ⟨[], by simp⟩
  | cons x l ih =>
    simp only [List.foldl_cons, addDir]
    by_cases hx : x ∈ ds
    · rw [if_pos hx]
      obtain ⟨D, hD, hq⟩ := ih ds
      exact ⟨D, hD, fun q hqD => List.mem_cons_of_mem _ (hq q hqD)⟩
    · rw [if_neg hx]
      obtain ⟨D, hD, hq⟩ := ih (ds ++ [x])
      refine ⟨[x] ++ D, by rw [hD, List.append_assoc], ?_⟩
      intro q hqD
      rcases List.mem_append.mp hqD with h | h
      · simp only [List.mem_singleton] at h
        simp [h]
      · exact List.mem_cons_of_mem _ (hq q h)

theorem foldl_addDir_noop (l : List FPath) (ds : List FPath) (h : ∀ x ∈ l, x ∈ ds) :
    l.foldl addDir ds = ds := by
  induction l with
  | nil => rfl
  | cons x l ih =>
    simp only [List.foldl_cons, addDir, if_pos (h x (by simp))]
    exact ih fun y hy => h y (List.mem_cons_of_mem _ hy)

theorem mkdirP_files (fs : FileSystem) (p : FPath) : (mkdirP fs p).files = fs.files := rfl

theorem mkdirP_fsFile (fs : FileSystem) (p q : FPath) : fsFile (mkdirP fs p) q = fsFile fs q := rfl

theorem mkdirP_dirs_mem (fs : FileSystem) (p q : FPath) :
    q ∈ (mkdirP fs p).dirs ↔ q ∈ fs.dirs ∨ q <+: p := by
  simp only [mkdirP, foldl_addDir_mem, List.mem_inits]

theorem mkdirP_noop (fs : FileSystem) (p : FPath) (h : ∀ q, q <+: p → q ∈ fs.dirs) :
    mkdirP fs p = fs := by
  have : p.inits.foldl addDir fs.dirs = fs.dirs :=
    foldl_addDir_noop _ _ fun x hx => h x ((List.mem_inits _ _).mp hx)
  simp [mkdirP, this]

theorem mkdirP_shape (fs : FileSystem) (p : FPath) :
    ∃ D, (mkdirP fs p).dirs = fs.dirs ++ D ∧ ∀ q ∈ D, q <+: p := by
  obtain ⟨D, hD, hq⟩ := foldl_addDir_shape p.inits fs.dirs
  exact ⟨D, hD, fun q hqD => (List.mem_inits _ _).mp (hq q hqD)⟩

theorem pref_comparable {α : Type} : ∀ (l₁ l₂ l₃ : List α),
    l₁ <+: l₃ → l₂ <+: l₃ → l₁ <+: l₂ ∨ l₂ <+: l₁ := by
  intro l₁
  induction l₁ with
  | nil => intro l₂ l₃ _ _; exact Or.inl List.nil_prefix
  | cons a t₁ ih =>
    intro l₂ l₃ h1 h2
    cases l₂ with
    | nil => exact Or.inr List.nil_prefix
    | cons b t₂ =>
      cases l₃ with
      | nil =>
        obtain ⟨u, hu⟩ := h1
        simp at hu
      | cons c t₃ =>
        obtain ⟨ha, h1'⟩ := List.cons_prefix_cons.mp h1
        obtain ⟨hb, h2'⟩ := List.cons_prefix_cons.mp h2
        rcases ih t₂ t₃ h1' h2' with h | h
        · exact Or.inl (List.cons_prefix_cons.mpr ⟨ha.trans hb.symm, h⟩)
        · exact Or.inr (List.cons_prefix_cons.mpr ⟨hb.trans ha.symm, h⟩)

theorem copy_file_state (d : FPath) (n : String) (c : List Nat) (oc : IOOutcome)
    (fs : FileSystem) :
    (copy_file d n c oc fs).1 = mkdirP fs (d ++ [extBucket n]) ∨
    (¬ fsExists (mkdirP fs (d ++ [extBucket n])) (d ++ [extBucket n] ++ [n]) ∧
      ∃ w, (copy_file d n c oc fs).1 =
        writeFile (mkdirP fs (d ++ [extBucket n])) (d ++ [extBucket n] ++ [n]) w) := by
  unfold copy_file copy_file_raw pyTry
  by_cases hex : fsExists (mkdirP fs (d ++ [extBucket n])) (d ++ [extBucket n] ++ [n])
  · rw [if_pos hex]
    exact Or.inl rfl
  · rw [if_neg hex]
    cases oc with
    | ok => exact Or.inr ⟨hex, c, rfl⟩
    | openSrcFail => exact Or.inl rfl
    | readFail => exact Or.inr ⟨hex, [], rfl⟩
    | writeFail k => exact Or.inr ⟨hex, c.take k, rfl⟩

theorem copy_file_dirs (d : FPath) (n : String) (c : List Nat) (oc : IOOutcome)
    (fs : FileSystem) :
    (copy_file d n c oc fs).1.dirs = (mkdirP fs (d ++ [extBucket n])).dirs := by
  rcases copy_file_state d n c oc fs with h | ⟨_, w, h⟩
  · rw [h]
  · rw [h]; rfl

theorem copy_file_growth (d : FPath) (n : String) (c : List Nat) (oc : IOOutcome)
    (fs : FileSystem) :
    ∃ L, (copy_file d n c oc fs).1.files = fs.files ++ L ∧
      ∀ x ∈ L, x.1 = d ++ [extBucket n] ++ [n] := by
  rcases copy_file_state d n c oc fs with h | ⟨_, w, h⟩
  · exact ⟨[], by simp [h, mkdirP_files], by simp⟩
  · refine ⟨[(d ++ [extBucket n] ++ [n], w)], by rw [h]; rfl, ?_⟩
    intro x hx
    simp only [List.mem_singleton] at hx
    rw [hx]

theorem runEntries_growth (d : FPath) : ∀ (es : List Entry) (fs : FileSystem),
    ∃ L D, (runEntries d es fs).1.files = fs.files ++ L ∧
      (runEntries d es fs).1.dirs = fs.dirs ++ D ∧
      (∀ x ∈ L, ∃ b m, x.1 = d ++ [b] ++ [m]) ∧
      (∀ q ∈ D, ∃ b, q <+: d ++ [b]) := by
  intro es fs
  induction es, fs using runEntries.induct d with
  | case1 fs =>
    exact ⟨[], [], by simp [runEntries], by simp [runEntries], by simp, by simp⟩
  | case2 n c oc es fs ih =>
    obtain ⟨L2, D2, hL2, hD2, hxL2, hqD2⟩ := ih
    obtain ⟨L1, hL1, hxL1⟩ := copy_file_growth d n c oc fs
    obtain ⟨D1, hDir1, hqD1⟩ := mkdirP_shape fs (d ++ [extBucket n])
    have hDir1' : (copy_file d n c oc fs).1.dirs = fs.dirs ++ D1 := by
      rw [copy_file_dirs]; exact hDir1
    refine ⟨L1 ++ L2, D1 ++ D2, ?_, ?_, ?_, ?_⟩
    · simp only [runEntries]
      rw [hL2, hL1, List.append_assoc]
    · simp only [runEntries]
      rw [hD2, hDir1', List.append_assoc]
    · intro x hx
      rcases List.mem_append.mp hx with h | h
      · exact ⟨extBucket n, n, hxL1 x h⟩
      · exact hxL2 x h
    · intro q hq
      rcases List.mem_append.mp hq with h | h
      · exact ⟨extBucket n, hqD1 q h⟩
      · exact hqD2 q h
  | case3 dn cs es fs ih1 ih2 =>
    obtain ⟨L1, D1, hL1, hD1, hxL1, hqD1⟩ := ih1
    obtain ⟨L2, D2, hL2, hD2, hxL2, hqD2⟩ := ih2
    refine ⟨L1 ++ L2, D1 ++ D2, ?_, ?_, ?_, ?_⟩
    · simp only [runEntries]
      rw [hL2, hL1, List.append_assoc]
    · simp only [runEntries]
      rw [hD2, hD1, List.append_assoc]
    · intro x hx
      rcases List.mem_append.mp hx with h | h
      · exact hxL1 x h
      · exact hxL2 x h
    · intro q hq
      rcases List.mem_append.mp hq with h | h
      · exact hqD1 q h
      · exact hqD2 q h
  | case4 dn cs es fs ih =>
    obtain ⟨L2, D2, hL2, hD2, hxL2, hqD2⟩ := ih
    refine ⟨L2, D2, ?_, ?_, hxL2, hqD2⟩
    · simp only [runEntries]
      exact hL2
    · simp only [runEntries]
      exact hD2
  | case5 name es fs ih =>
    simp only [runEntries]
    exact ih

theorem runEntries_file_pres (d : FPath) (es : List Entry) (fs : FileSystem) (p : FPath)
    (v : List Nat) (h : fsFile fs p = some v) : fsFile (runEntries d es fs).1 p = some v := by
  obtain ⟨L, D, hL, _, _, _⟩ := runEntries_growth d es fs
  unfold fsFile at h ⊢
  rw [hL]
  exact lookupFS_append_some _ _ _ _ h

theorem runEntries_dir_pres (d : FPath) (es : List Entry) (fs : FileSystem) (q : FPath)
    (h : q ∈ fs.dirs) : q ∈ (runEntries d es fs).1.dirs := by
  obtain ⟨L, D, _, hD, _, _⟩ := runEntries_growth d es fs
  rw [hD]
  exact List.mem_append_left _ h

theorem runEntries_exists_pres (d : FPath) (es : List Entry) (fs : FileSystem) (p : FPath)
    (h : fsExists fs p) : fsExists (runEntries d es fs).1 p := by
  rcases h with h | h
  · rw [Option.isSome_iff_exists] at h
    obtain ⟨v, hv⟩ := h
    exact Or.inl (by rw [runEntries_file_pres d es fs p v hv]; rfl)
  · exact Or.inr (runEntries_dir_pres d es fs p h)

theorem runEntries_dirs_short (d : FPath) (es : List Entry) (fs : FileSystem)
    (h : ∀ q ∈ fs.dirs, q.length ≤ d.length + 1) :
    ∀ q ∈ (runEntries d es fs).1.dirs, q.length ≤ d.length + 1 := by
  obtain ⟨L, D, _, hD, _, hDp⟩ := runEntries_growth d es fs
  rw [hD]
  intro q hq
  rcases List.mem_append.mp hq with h1 | h1
  · exact h q h1
  · obtain ⟨b, hb⟩ := hDp q h1
    have hlen := hb.length_le
    simpa using hlen

/-- The walker's handling of one subdirectory entry is exactly a `read_folder`
call (the task the source gathers for it) followed by the remaining entries. -/
theorem runEntries_dir_eq_read_folder (d : FPath) (dn : String) (ok : Bool)
    (cs es : List Entry) (fs : FileSystem) :
    runEntries d (Entry.dir dn ok cs :: es) fs =
      ((runEntries d es (read_folder d dn ok cs fs).1).1,
        (read_folder d dn ok cs fs).2 ++ (runEntries d es (read_folder d dn ok cs fs).1).2) := by
  cases ok with
  | true => simp [runEntries, read_folder, read_folder_raw, pyTry]
  | false => simp [runEntries, read_folder, read_folder_raw, pyTry]

theorem allOk_file (n : String) (c : List Nat) (oc : IOOutcome) (es : List Entry)
    (h : allOk (Entry.file n c oc :: es) = true) : oc = IOOutcome.ok ∧ allOk es = true := by
  cases oc with
  | ok =>
    simp only [allOk] at h
    exact ⟨rfl, h⟩
  | openSrcFail => simp [allOk] at h
  | readFail => simp [allOk] at h
  | writeFail k => simp [allOk] at h

theorem allOk_dir (dn : String) (ok : Bool) (cs es : List Entry)
    (h : allOk (Entry.dir dn ok cs :: es) = true) :
    ok = true ∧ allOk cs = true ∧ allOk es = true := by
  simp only [allOk, Bool.and_eq_true] at h
  exact ⟨h.1.1, h.1.2, h.2⟩

theorem allOk_other (n : String) (es : List Entry) (h : allOk (Entry.other n :: es) = true) :
    allOk es = true := by
  simp only [allOk] at h
  exact h

theorem not_fsExists_file (fs : FileSystem) (p : FPath) (h : ¬ fsExists fs p) :
    fsFile fs p = none := by
  cases hf : fsFile fs p with
  | none => rfl
  | some v => exact absurd (Or.inl (by rw [hf]; rfl)) h

theorem writeFile_fsFile_self (fs : FileSystem) (p : FPath) (c : List Nat)
    (h : fsFile fs p = none) : fsFile (writeFile fs p c) p = some c := by
  have h' : lookupFS fs.files p = none := h
  show lookupFS (fs.files ++ [(p, c)]) p = some c
  rw [lookupFS_append_none _ _ _ h']
  simp [lookupFS]

/-- A successful `copy_file` leaves the destination path occupied, whether it
copied or skipped. -/
theorem copy_file_creates (d : FPath) (n : String) (c : List Nat) (fs : FileSystem) :
    fsExists (copy_file d n c IOOutcome.ok fs).1 (d ++ [extBucket n] ++ [n]) := by
  unfold copy_file copy_file_raw pyTry
  by_cases hex : fsExists (mkdirP fs (d ++ [extBucket n])) (d ++ [extBucket n] ++ [n])
  · rw [if_pos hex]
    exact hex
  · rw [if_neg hex]
    exact Or.inl (by
      rw [writeFile_fsFile_self _ _ _ (not_fsExists_file _ _ hex)]
      rfl)

theorem runEntries_saturates (d : FPath) : ∀ (es : List Entry) (fs : FileSystem),
    allOk es = true →
    ∀ f ∈ filesOf es,
      fsExists (runEntries d es fs).1 (d ++ [f.1] ++ [f.2.1]) ∧
      ∀ q, q <+: d ++ [f.1] → q ∈ (runEntries d es fs).1.dirs := by
  intro es fs
  induction es, fs using runEntries.induct d with
  | case1 fs =>
    intro _ f hf
    simp [filesOf] at hf
  | case2 n c oc es fs ih =>
    intro hok f hf
    obtain ⟨hoc, hes⟩ := allOk_file n c oc es hok
    subst hoc
    simp only [filesOf] at hf
    simp only [runEntries]
    rcases List.mem_cons.mp hf with hf | hf
    · subst hf
      constructor
      · exact runEntries_exists_pres _ _ _ _ (copy_file_creates d n c fs)
      · intro q hq
        apply runEntries_dir_pres
        rw [copy_file_dirs, mkdirP_dirs_mem]
        exact Or.inr hq
    · exact ih hes f hf
  | case3 dn cs es fs ih1 ih2 =>
    intro hok f hf
    obtain ⟨_, hcs, hes⟩ := allOk_dir dn true cs es hok
    simp only [filesOf] at hf
    simp only [runEntries]
    rcases List.mem_append.mp hf with hf | hf
    · obtain ⟨h1, h2⟩ := ih1 hcs f hf
      constructor
      · exact runEntries_exists_pres _ _ _ _ h1
      · intro q hq
        exact runEntries_dir_pres _ _ _ _ (h2 q hq)
    · exact ih2 hes f hf
  | case4 dn cs es fs ih =>
    intro hok
    obtain ⟨hcontra, _, _⟩ := allOk_dir dn false cs es hok
    cases hcontra
  | case5 name es fs ih =>
    intro hok f hf
    simp only [filesOf] at hf
    simp only [runEntries]
    exact ih (allOk_other name es hok) f hf

theorem runEntries_skips (d : FPath) : ∀ (es : List Entry) (fs : FileSystem),
    allOk es = true →
    (∀ f ∈ filesOf es,
      fsExists fs (d ++ [f.1] ++ [f.2.1]) ∧ ∀ q, q <+: d ++ [f.1] → q ∈ fs.dirs) →
    runEntries d es fs = (fs, (filesOf es).map fun f => LogEvent.warnExists f.2.1 f.1) := by
  intro es fs
  induction es, fs using runEntries.induct d with
  | case1 fs =>
    intro _ _
    simp [runEntries, filesOf]
  | case2 n c oc es fs ih =>
    intro hok hsat
    obtain ⟨hoc, hes⟩ := allOk_file n c oc es hok
    subst hoc
    have hhead := hsat (extBucket n, n, c) (by simp [filesOf])
    have hex0 : fsExists fs (d ++ [extBucket n] ++ [n]) := hhead.1
    have hdirs0 : ∀ q, q <+: d ++ [extBucket n] → q ∈ fs.dirs := hhead.2
    have hmk : mkdirP fs (d ++ [extBucket n]) = fs := mkdirP_noop fs _ hdirs0
    have hskip : copy_file d n c IOOutcome.ok fs = (fs, [LogEvent.warnExists n (extBucket n)]) := by
      simp only [copy_file, copy_file_raw, pyTry]
      rw [hmk, if_pos hex0]
    have ihes : runEntries d es fs = (fs, (filesOf es).map fun f => LogEvent.warnExists f.2.1 f.1) := by
      have ih' := ih
      rw [hskip] at ih'
      exact ih' hes fun f hf => hsat f (by
        simp only [filesOf]
        exact List.mem_cons_of_mem _ hf)
    simp only [runEntries, hskip, ihes, filesOf, List.map_cons, List.singleton_append]
  | case3 dn cs es fs ih1 ih2 =>
    intro hok hsat
    obtain ⟨_, hcs, hes⟩ := allOk_dir dn true cs es hok
    have hchild : runEntries d cs fs = (fs, (filesOf cs).map fun f => LogEvent.warnExists f.2.1 f.1) :=
      ih1 hcs fun f hf => hsat f (by
        simp only [filesOf]
        exact List.mem_append_left _ hf)
    have ihes : runEntries d es fs = (fs, (filesOf es).map fun f => LogEvent.warnExists f.2.1 f.1) := by
      have ih' := ih2
      rw [hchild] at ih'
      exact ih' hes fun f hf => hsat f (by
        simp only [filesOf]
        exact List.mem_append_right _ hf)
    simp only [runEntries, hchild, ihes, filesOf, List.map_append]
  | case4 dn cs es fs ih =>
    intro hok
    obtain ⟨hcontra, _, _⟩ := allOk_dir dn false cs es hok
    cases hcontra
  | case5 name es fs ih =>
    intro hok hsat
    simp only [runEntries, filesOf]
    exact ih (allOk_other name es hok) fun f hf => hsat f (by
      simp only [filesOf]
      exact hf)

theorem runEntries_files_allOk (d : FPath) : ∀ (es : List Entry) (fs : FileSystem),
    allOk es = true →
    ((fs.files.map Prod.fst) ++ (filesOf es).map fun f => d ++ [f.1] ++ [f.2.1]).Nodup →
    (∀ q ∈ fs.dirs, q.length ≤ d.length + 1) →
    (runEntries d es fs).1.files =
      fs.files ++ (filesOf es).map fun f => (d ++ [f.1] ++ [f.2.1], f.2.2) := by
  intro es fs
  induction es, fs using runEntries.induct d with
  | case1 fs =>
    intro _ _ _
    simp [runEntries, filesOf]
  | case2 n c oc es fs ih =>
    intro hok hnd hdirs
    obtain ⟨hoc, hes⟩ := allOk_file n c oc es hok
    subst hoc
    simp only [filesOf, List.map_cons] at hnd
    have hkey : d ++ [extBucket n] ++ [n] ∉ fs.files.map Prod.fst := by
      rw [List.nodup_append] at hnd
      intro hmem
      exact hnd.2.2 hmem (List.mem_cons_self _ _)
    have hdirmem : d ++ [extBucket n] ++ [n] ∉ (mkdirP fs (d ++ [extBucket n])).dirs := by
      intro hmem
      rw [mkdirP_dirs_mem] at hmem
      rcases hmem with hmem | hmem
      · have hlen := hdirs _ hmem
        simp at hlen
      · have hlen := hmem.length_le
        simp at hlen
    have hex : ¬ fsExists (mkdirP fs (d ++ [extBucket n])) (d ++ [extBucket n] ++ [n]) := by
      intro hcon
      rcases hcon with hcon | hcon
      · rw [Option.isSome_iff_exists] at hcon
        obtain ⟨v, hv⟩ := hcon
        have hv' : lookupFS fs.files (d ++ [extBucket n] ++ [n]) = some v := hv
        have hne : ¬ (lookupFS fs.files (d ++ [extBucket n] ++ [n]) = none) := by
          rw [hv']
          simp
        rw [lookupFS_eq_none_iff] at hne
        rw [not_not] at hne
        exact hkey hne
      · exact hdirmem hcon
    have hcopy : copy_file d n c IOOutcome.ok fs =
        (writeFile (mkdirP fs (d ++ [extBucket n])) (d ++ [extBucket n] ++ [n]) c,
          [LogEvent.infoCopied n (extBucket n)]) := by
      simp only [copy_file, copy_file_raw, pyTry]
      rw [if_neg hex]
    have hstep : (writeFile (mkdirP fs (d ++ [extBucket n])) (d ++ [extBucket n] ++ [n]) c).files
        = fs.files ++ [(d ++ [extBucket n] ++ [n], c)] := rfl
    have ihes := ih
    rw [hcopy] at ihes
    have hnd' : (((writeFile (mkdirP fs (d ++ [extBucket n])) (d ++ [extBucket n] ++ [n])
          c).files).map Prod.fst ++ (filesOf es).map fun f => d ++ [f.1] ++ [f.2.1]).Nodup := by
      rw [hstep, List.map_append, List.append_assoc]
      simpa using hnd
    have hdirs' : ∀ q ∈ (writeFile (mkdirP fs (d ++ [extBucket n])) (d ++ [extBucket n] ++ [n])
        c).dirs, q.length ≤ d.length + 1 := by
      intro q hq
      have hq' : q ∈ (mkdirP fs (d ++ [extBucket n])).dirs := hq
      rw [mkdirP_dirs_mem] at hq'
      rcases hq' with hq' | hq'
      · exact hdirs q hq'
      · have := hq'.length_le
        simpa using this
    have hrun := ihes hes hnd' hdirs'
    simp only [runEntries, hcopy]
    rw [hrun, hstep]
    simp [filesOf, List.append_assoc]
  | case3 dn cs es fs ih1 ih2 =>
    intro hok hnd hdirs
    obtain ⟨_, hcs, hes⟩ := allOk_dir dn true cs es hok
    simp only [filesOf, List.map_append] at hnd
    have hndcs : ((fs.files.map Prod.fst) ++ (filesOf cs).map fun f =>
        d ++ [f.1] ++ [f.2.1]).Nodup := by
      refine List.Nodup.sublist ?_ hnd
      rw [← List.append_assoc]
      exact List.sublist_append_left _ _
    have hchild := ih1 hcs hndcs hdirs
    have hdirs2 := runEntries_dirs_short d cs fs hdirs
    have hmapfst : ((runEntries d cs fs).1.files).map Prod.fst =
        fs.files.map Prod.fst ++ (filesOf cs).map fun f => d ++ [f.1] ++ [f.2.1] := by
      rw [hchild, List.map_append, List.map_map]
      rfl
    have hnd2 : (((runEntries d cs fs).1.files).map Prod.fst ++ (filesOf es).map fun f =>
        d ++ [f.1] ++ [f.2.1]).Nodup := by
      rw [hmapfst, List.append_assoc]
      exact hnd
    have hrun := ih2 hes hnd2 hdirs2
    simp only [runEntries]
    rw [hrun, hchild]
    simp [filesOf, List.append_assoc]
  | case4 dn cs es fs ih =>
    intro hok
    obtain ⟨hcontra, _, _⟩ := allOk_dir dn false cs es hok
    cases hcontra
  | case5 name es fs ih =>
    intro hok hnd hdirs
    simp only [filesOf] at hnd ⊢
    simp only [runEntries]
    exact ih (allOk_other name es hok) hnd hdirs

theorem key_path_inj (d : FPath) (x y x' y' : String) :
    d ++ [x] ++ [y] = d ++ [x'] ++ [y'] ↔ x = x' ∧ y = y' := by
  constructor
  · intro h
    rw [List.append_assoc, List.append_assoc] at h
    have h2 := List.append_cancel_left h
    simpa using h2
  · rintro ⟨rfl, rfl⟩
    rfl

theorem mkdirP_dirs_short (fs : FileSystem) (d : FPath) (x : String)
    (h : ∀ q ∈ fs.dirs, q.length ≤ d.length + 1) :
    ∀ q ∈ (mkdirP fs (d ++ [x])).dirs, q.length ≤ d.length + 1 := by
  intro q hq
  rw [mkdirP_dirs_mem] at hq
  rcases hq with hq | hq
  · exact h q hq
  · have := hq.length_le
    simpa using this

/-- In a state whose directories are no deeper than one level under the
destination root, the copier's `exists()` check on the two-level destination
file path sees exactly the file table. -/
theorem fsExists_shape_iff (fs : FileSystem) (d : FPath) (x y : String)
    (hdirs : ∀ q ∈ fs.dirs, q.length ≤ d.length + 1) :
    fsExists (mkdirP fs (d ++ [x])) (d ++ [x] ++ [y]) ↔
      (fsFile fs (d ++ [x] ++ [y])).isSome = true := by
  constructor
  · intro h
    rcases h with h | h
    · exact h
    · rw [mkdirP_dirs_mem] at h
      rcases h with h | h
      · have := hdirs _ h
        simp at this
      · have := h.length_le
        simp at this
  · intro h
    exact Or.inl h

theorem writeFile_fsFile_other (fs : FileSystem) (p q : FPath) (c : List Nat)
    (h : ¬ p = q) : fsFile (writeFile fs p c) q = fsFile fs q := by
  show lookupFS (fs.files ++ [(p, c)]) q = lookupFS fs.files q
  apply lookupFS_append_not_mem
  intro hmem
  simp only [List.map_cons, List.map_nil, List.mem_singleton] at hmem
  exact h hmem.symm

theorem find?_append_left {α : Type} (p : α → Bool) (l₁ l₂ : List α) (a : α)
    (h : l₁.find? p = some a) : (l₁ ++ l₂).find? p = some a := by
  induction l₁ with
  | nil => simp [List.find?_nil] at h
  | cons x l₁ ih =>
    by_cases hx : p x = true
    · rw [List.find?_cons_of_pos _ hx] at h
      rw [List.cons_append, List.find?_cons_of_pos _ hx]
      exact h
    · rw [List.find?_cons_of_neg _ hx] at h
      rw [List.cons_append, List.find?_cons_of_neg _ hx]
      exact ih h

theorem find?_append_right {α : Type} (p : α → Bool) (l₁ l₂ : List α)
    (h : l₁.find? p = none) : (l₁ ++ l₂).find? p = l₂.find? p := by
  induction l₁ with
  | nil => simp
  | cons x l₁ ih =>
    by_cases hx : p x = true
    · rw [List.find?_cons_of_pos _ hx] at h
      cases h
    · rw [List.find?_cons_of_neg _ hx] at h
      rw [List.cons_append, List.find?_cons_of_neg _ hx]
      exact ih h

/-- Collision semantics of a full error-free run: at any two-level
destination path that is initially empty, the final content is that of the
first file in traversal order whose bucket and name produce that path, and
absent when no file does. -/
theorem runEntries_lookup_none (dst : FPath) : ∀ (es : List Entry) (fs : FileSystem),
    allOk es = true →
    (∀ q ∈ fs.dirs, q.length ≤ dst.length + 1) →
    ∀ b n : String, fsFile fs (dst ++ [b] ++ [n]) = none →
      fsFile (runEntries dst es fs).1 (dst ++ [b] ++ [n]) =
        ((filesOf es).find? fun g => decide (g.1 = b ∧ g.2.1 = n)).map fun g => g.2.2 := by
  intro es fs
  induction es, fs using runEntries.induct dst with
  | case1 fs =>
    intro _ _ b n hnone
    simpa [runEntries, filesOf] using hnone
  | case2 m c oc es fs ih =>
    intro hok hdirs b n hnone
    obtain ⟨hoc, hes⟩ := allOk_file m c oc es hok
    subst hoc
    by_cases hmatch : extBucket m = b ∧ m = n
    · have hkey : dst ++ [extBucket m] ++ [m] = dst ++ [b] ++ [n] := by
        rw [hmatch.1, hmatch.2]
      have hnoex : ¬ fsExists (mkdirP fs (dst ++ [extBucket m]))
          (dst ++ [extBucket m] ++ [m]) := by
        intro hex
        rw [fsExists_shape_iff fs dst (extBucket m) m hdirs, hkey, hnone] at hex
        simp at hex
      have hcopy : copy_file dst m c IOOutcome.ok fs =
          (writeFile (mkdirP fs (dst ++ [extBucket m])) (dst ++ [extBucket m] ++ [m]) c,
            [LogEvent.infoCopied m (extBucket m)]) := by
        simp only [copy_file, copy_file_raw, pyTry]
        rw [if_neg hnoex]
      have hfs2 : fsFile (writeFile (mkdirP fs (dst ++ [extBucket m]))
          (dst ++ [extBucket m] ++ [m]) c) (dst ++ [b] ++ [n]) = some c := by
        rw [← hkey]
        apply writeFile_fsFile_self
        show fsFile fs (dst ++ [extBucket m] ++ [m]) = none
        rw [hkey]
        exact hnone
      simp only [runEntries, hcopy]
      rw [runEntries_file_pres dst es _ _ c hfs2]
      simp only [filesOf]
      rw [List.find?_cons_of_pos _ (by
        simp only [decide_eq_true_eq]
        exact hmatch)]
      rfl
    · have hne : ¬ (dst ++ [extBucket m] ++ [m] = dst ++ [b] ++ [n]) := by
        intro he
        exact hmatch ((key_path_inj dst _ _ _ _).mp he)
      have hnone' : fsFile (copy_file dst m c IOOutcome.ok fs).1 (dst ++ [b] ++ [n]) = none := by
        rcases copy_file_state dst m c IOOutcome.ok fs with h | ⟨_, w, h⟩
        · rw [h]
          exact hnone
        · rw [h, writeFile_fsFile_other _ _ _ _ hne]
          exact hnone
      have hdirs' : ∀ q ∈ (copy_file dst m c IOOutcome.ok fs).1.dirs,
          q.length ≤ dst.length + 1 := by
        intro q hq
        rw [copy_file_dirs] at hq
        exact mkdirP_dirs_short fs dst (extBucket m) hdirs q hq
      simp only [runEntries]
      rw [ih hes hdirs' b n hnone']
      simp only [filesOf]
      rw [List.find?_cons_of_neg _ (by
        simp only [decide_eq_true_eq]
        exact hmatch)]
  | case3 dn cs es fs ih1 ih2 =>
    intro hok hdirs b n hnone
    obtain ⟨_, hcs, hes⟩ := allOk_dir dn true cs es hok
    have hdirs2 := runEntries_dirs_short dst cs fs hdirs
    simp only [runEntries]
    cases hfind : (filesOf cs).find? fun g => decide (g.1 = b ∧ g.2.1 = n) with
    | some g =>
      have hcsrun : fsFile (runEntries dst cs fs).1 (dst ++ [b] ++ [n]) = some g.2.2 := by
        rw [ih1 hcs hdirs b n hnone, hfind]
        rfl
      rw [runEntries_file_pres dst es _ _ _ hcsrun]
      simp only [filesOf]
      rw [find?_append_left _ _ _ _ hfind]
      rfl
    | none =>
      have hcsrun : fsFile (runEntries dst cs fs).1 (dst ++ [b] ++ [n]) = none := by
        rw [ih1 hcs hdirs b n hnone, hfind]
        rfl
      rw [ih2 hes hdirs2 b n hcsrun]
      simp only [filesOf]
      rw [find?_append_right _ _ _ hfind]
  | case4 dn cs es fs ih =>
    intro hok
    obtain ⟨hcontra, _, _⟩ := allOk_dir dn false cs es hok
    cases hcontra
  | case5 name es fs ih =>
    intro hok hdirs b n hnone
    simp only [runEntries, filesOf]
    exact ih (allOk_other name es hok) hdirs b n hnone

/-- C3, counterexample: for a filename with a trailing dot, such as `file.`,
the claim's rule (substring after the last dot, lowercased) yields the empty
bucket, while the program buckets the file under `unknown`. -/
theorem c3_counterexample :
    extBucket "file." = "unknown" ∧ specBucketC3 "file." = "" ∧ ("unknown" : String) ≠ "" := by
  refine ⟨by decide, by decide, by decide⟩

/-- C3 (amended): the extension bucket is the lowercased substring after the
last dot of the filename, except that the bucket is the literal `unknown`
when the filename has no dot, when its only dot is the leading one, or when
the substring after the last dot is empty (a trailing dot); in particular
`archive.TAR.GZ` buckets under `gz`, and `.gitignore` and `noext` bucket
under `unknown`. -/
theorem c3_extension_rule :
    (∀ name : String, extBucket name = specBucketC3Amended name) ∧
    extBucket "archive.TAR.GZ" = "gz" ∧
    extBucket ".gitignore" = "unknown" ∧
    extBucket "noext" = "unknown" :=
  ⟨extBucket_eq_specAmended, by decide, by decide, by decide⟩

/-- C2, code bug: `copy_file` opens the destination with mode `wb` before the
source bytes are read and performs no cleanup in its `except` clause, so a
write that fails partway leaves a truncated file at the destination path and
a read failure leaves a zero-length file there, contradicting the claim that
the destination state is unchanged on copy failure. -/
theorem c2_partial_file_left_behind :
    fsFile (copy_file ["d"] "a.txt" [1, 2, 3] (IOOutcome.writeFail 1) ⟨[], []⟩).1
        ["d", "txt", "a.txt"] = some [1] ∧
    fsFile (copy_file ["d"] "b.txt" [1, 2, 3] IOOutcome.readFail ⟨[], []⟩).1
        ["d", "txt", "b.txt"] = some [] := by
  exact ⟨rfl, rfl⟩

/-- C4: when a file with the same base name already exists at the computed
destination subfolder, `copy_file` logs one warning naming the file and the
bucket and returns without writing: the file table is unchanged and the
existing destination content survives. -/
theorem c4_collision_skips (d : FPath) (n : String) (c' : List Nat) (oc : IOOutcome)
    (fs : FileSystem) (c : List Nat)
    (h : fsFile fs (d ++ [extBucket n] ++ [n]) = some c) :
    copy_file d n c' oc fs =
      (mkdirP fs (d ++ [extBucket n]), [LogEvent.warnExists n (extBucket n)]) ∧
    (copy_file d n c' oc fs).1.files = fs.files ∧
    fsFile (copy_file d n c' oc fs).1 (d ++ [extBucket n] ++ [n]) = some c := by
  have hmkfile : fsFile (mkdirP fs (d ++ [extBucket n])) (d ++ [extBucket n] ++ [n])
      = fsFile fs (d ++ [extBucket n] ++ [n]) := rfl
  have hex : fsExists (mkdirP fs (d ++ [extBucket n])) (d ++ [extBucket n] ++ [n]) :=
    Or.inl (by rw [hmkfile, h]; rfl)
  have heq : copy_file d n c' oc fs =
      (mkdirP fs (d ++ [extBucket n]), [LogEvent.warnExists n (extBucket n)]) := by
    simp only [copy_file, copy_file_raw, pyTry]
    rw [if_pos hex]
  refine ⟨heq, by rw [heq]; rfl, by rw [heq]; exact h⟩

/-- C4, witness: a destination that already holds `d/txt/a.txt` makes the
copier skip and keep the old bytes. -/
theorem c4_collision_skips_witness :
    (copy_file ["d"] "a.txt" [1] IOOutcome.ok
        ⟨[(["d", "txt", "a.txt"], [9])], []⟩).1.files = [(["d", "txt", "a.txt"], [9])] ∧
    fsFile (copy_file ["d"] "a.txt" [1] IOOutcome.ok
        ⟨[(["d", "txt", "a.txt"], [9])], []⟩).1
      (["d"] ++ [extBucket "a.txt"] ++ ["a.txt"]) = some [9] :=
  ⟨(c4_collision_skips ["d"] "a.txt" [1] IOOutcome.ok
      ⟨[(["d", "txt", "a.txt"], [9])], []⟩ [9] rfl).2.1,
   (c4_collision_skips ["d"] "a.txt" [1] IOOutcome.ok
      ⟨[(["d", "txt", "a.txt"], [9])], []⟩ [9] rfl).2.2⟩

/-- C8: an entry that is neither a regular file nor a directory is silently
ignored: the walk with it at the head equals the walk without it - same final
state and same log, so no task is scheduled and nothing is logged for it. -/
theorem c8_other_entries_ignored (d : FPath) (n : String) (es : List Entry)
    (fs : FileSystem) :
    runEntries d (Entry.other n :: es) fs = runEntries d es fs := by
  simp [runEntries]

/-- C9: `copy_file` creates the extension-bucket directory before the
collision check, so the bucket directory exists after every call - also when
the file is skipped as already existing, and also when its copy fails. -/
theorem c9_bucket_dir_always_created (d : FPath) (n : String) (c : List Nat)
    (oc : IOOutcome) (fs : FileSystem) :
    d ++ [extBucket n] ∈ (copy_file d n c oc fs).1.dirs := by
  rw [copy_file_dirs, mkdirP_dirs_mem]
  exact Or.inr ⟨[], List.append_nil _⟩

/-- C1, counterexample: two distinct regular files both named `x.txt` in
different subdirectories collide on the destination path `d/txt/x.txt`;
after a full run from an empty destination the path holds the first file's
bytes `[1]`, so the second reachable file (content `[2]`) does not exist at
`D/ext(f)/name(f)` with byte-identical content. -/
theorem c1_counterexample :
    ("txt", "x.txt", ([2] : List Nat)) ∈ filesOf
        [Entry.dir "a" true [Entry.file "x.txt" [1] IOOutcome.ok],
         Entry.dir "b" true [Entry.file "x.txt" [2] IOOutcome.ok]] ∧
    fsFile (runEntries ["d"]
        [Entry.dir "a" true [Entry.file "x.txt" [1] IOOutcome.ok],
         Entry.dir "b" true [Entry.file "x.txt" [2] IOOutcome.ok]] ⟨[], []⟩).1
      (["d"] ++ ["txt"] ++ ["x.txt"]) = some [1] ∧
    ([1] : List Nat) ≠ [2] := by
  refine ⟨?_, ?_, by decide⟩
  · simp only [filesOf]
    decide
  · simp [runEntries, copy_file, copy_file_raw, pyTry, mkdirP, writeFile, fsExists, fsFile,
      lookupFS, extBucket, pathSuffix, rfindDot, lstripDot, addDir, List.inits]

/-- C1 (amended): after a full run in which every listing and every copy
succeeds, starting from an initially empty destination, the content at any
destination path `D/b/n` is that of the first file in traversal order whose
bucket is `b` and name is `n` (and the path is absent when no file maps to
it); in particular every regular file whose own destination path
`D/ext(f)/name(f)` is not shared with another source file - even in trees
that contain collisions among other files - exists there with byte-identical
content, and when several files share a path the first in traversal order
wins. -/
theorem c1_every_unique_file_copied (d : FPath) (es : List Entry)
    (h1 : allOk es = true) :
    (∀ b n : String,
      fsFile (runEntries d es ⟨[], []⟩).1 (d ++ [b] ++ [n]) =
        ((filesOf es).find? fun g => decide (g.1 = b ∧ g.2.1 = n)).map fun g => g.2.2) ∧
    (∀ f ∈ filesOf es,
      (∀ g ∈ filesOf es, g.1 = f.1 → g.2.1 = f.2.1 → g = f) →
      fsFile (runEntries d es ⟨[], []⟩).1 (d ++ [f.1] ++ [f.2.1]) = some f.2.2) := by
  have hchar : ∀ b n : String,
      fsFile (runEntries d es ⟨[], []⟩).1 (d ++ [b] ++ [n]) =
        ((filesOf es).find? fun g => decide (g.1 = b ∧ g.2.1 = n)).map fun g => g.2.2 :=
    fun b n => runEntries_lookup_none d es ⟨[], []⟩ h1 (by simp) b n rfl
  refine ⟨hchar, ?_⟩
  intro f hf huniq
  rw [hchar f.1 f.2.1]
  cases hfind : (filesOf es).find? fun g => decide (g.1 = f.1 ∧ g.2.1 = f.2.1) with
  | none =>
    rw [List.find?_eq_none] at hfind
    have hff := hfind f hf
    simp at hff
  | some g =>
    have hg1 := List.find?_some hfind
    have hg2 := List.mem_of_find?_eq_some hfind
    simp only [decide_eq_true_eq] at hg1
    rw [huniq g hg2 hg1.1 hg1.2]
    rfl

/-- C1, witness: a tree that does contain a collision (`a/x.txt` and
`b/x.txt`): the collision-free file `a.txt` still lands at `d/txt/a.txt`
with its bytes, and the collided path `d/txt/x.txt` holds the first
`x.txt` in traversal order. -/
theorem c1_every_unique_file_copied_witness :
    fsFile (runEntries ["d"]
        [Entry.file "a.txt" [1, 2] IOOutcome.ok,
         Entry.dir "a" true [Entry.file "x.txt" [3] IOOutcome.ok],
         Entry.dir "b" true [Entry.file "x.txt" [4] IOOutcome.ok]] ⟨[], []⟩).1
      (["d"] ++ ["txt"] ++ ["a.txt"]) = some [1, 2] ∧
    fsFile (runEntries ["d"]
        [Entry.file "a.txt" [1, 2] IOOutcome.ok,
         Entry.dir "a" true [Entry.file "x.txt" [3] IOOutcome.ok],
         Entry.dir "b" true [Entry.file "x.txt" [4] IOOutcome.ok]] ⟨[], []⟩).1
      (["d"] ++ ["txt"] ++ ["x.txt"]) = some [3] := by
  constructor
  · exact (c1_every_unique_file_copied ["d"]
      [Entry.file "a.txt" [1, 2] IOOutcome.ok,
       Entry.dir "a" true [Entry.file "x.txt" [3] IOOutcome.ok],
       Entry.dir "b" true [Entry.file "x.txt" [4] IOOutcome.ok]]
      (by simp [allOk])).2
      ("txt", "a.txt", [1, 2])
      (by simp only [filesOf]; decide)
      (by simp only [filesOf]; decide)
  · rw [(c1_every_unique_file_copied ["d"]
      [Entry.file "a.txt" [1, 2] IOOutcome.ok,
       Entry.dir "a" true [Entry.file "x.txt" [3] IOOutcome.ok],
       Entry.dir "b" true [Entry.file "x.txt" [4] IOOutcome.ok]]
      (by simp [allOk])).1 "txt" "x.txt"]
    simp only [filesOf]
    decide

/-- C5: an exception raised inside the body of a file-copy task or of a
folder-walk task is caught at that task's own boundary and converted into
exactly one error-log line: the wrapped function returns normally with the
state the body had reached, and nothing propagates to the caller. -/
theorem c5_errors_never_propagate :
    (∀ (d : FPath) (n : String) (c : List Nat) (oc : IOOutcome) (fs : FileSystem) (e : PyErr),
      copy_file_raw d n c oc fs = Except.error e →
      copy_file d n c oc fs = (e.fs, [LogEvent.errorCopy e.name])) ∧
    (∀ (d : FPath) (dn : String) (ok : Bool) (cs : List Entry) (fs : FileSystem) (e : PyErr),
      read_folder_raw d dn ok cs fs = Except.error e →
      read_folder d dn ok cs fs = (e.fs, [LogEvent.errorFolder e.name])) := by
  constructor
  · intro d n c oc fs e h
    simp only [copy_file, pyTry, h]
  · intro d dn ok cs fs e h
    simp only [read_folder, pyTry, h]

/-- C5, witness: a failing source open becomes one `errorCopy` log line, and
a failing directory listing becomes one `errorFolder` log line; both calls
return normally. -/
theorem c5_errors_never_propagate_witness :
    copy_file ["d"] "a" [1] IOOutcome.openSrcFail ⟨[], []⟩ =
      (mkdirP ⟨[], []⟩ (["d"] ++ [extBucket "a"]), [LogEvent.errorCopy "a"]) ∧
    read_folder ["d"] "src" false [] ⟨[], []⟩ = (⟨[], []⟩, [LogEvent.errorFolder "src"]) :=
  ⟨c5_errors_never_propagate.1 ["d"] "a" [1] IOOutcome.openSrcFail ⟨[], []⟩
      ⟨mkdirP ⟨[], []⟩ (["d"] ++ [extBucket "a"]), "a"⟩ rfl,
   c5_errors_never_propagate.2 ["d"] "src" false [] ⟨[], []⟩ ⟨⟨[], []⟩, "src"⟩ rfl⟩

/-- C6: running the same sort a second time against the same destination is
idempotent: the second run returns the filesystem exactly as the first run
left it - so every destination file keeps its content - and its log is one
skip-warning per source file, in traversal order. -/
theorem c6_second_run_idempotent (d : FPath) (es : List Entry) (fs0 : FileSystem)
    (h : allOk es = true) :
    runEntries d es (runEntries d es fs0).1 =
      ((runEntries d es fs0).1,
        (filesOf es).map fun f => LogEvent.warnExists f.2.1 f.1) :=
  runEntries_skips d es (runEntries d es fs0).1 h (runEntries_saturates d es fs0 h)

/-- C6, witness: on a small two-level tree the second run leaves the state
of the first run unchanged and warns for both files. -/
theorem c6_second_run_idempotent_witness :
    runEntries ["d"]
        [Entry.file "a.txt" [1] IOOutcome.ok,
         Entry.dir "sub" true [Entry.file "b.md" [2] IOOutcome.ok]]
        (runEntries ["d"]
          [Entry.file "a.txt" [1] IOOutcome.ok,
           Entry.dir "sub" true [Entry.file "b.md" [2] IOOutcome.ok]] ⟨[], []⟩).1 =
      ((runEntries ["d"]
          [Entry.file "a.txt" [1] IOOutcome.ok,
           Entry.dir "sub" true [Entry.file "b.md" [2] IOOutcome.ok]] ⟨[], []⟩).1,
        (filesOf
          [Entry.file "a.txt" [1] IOOutcome.ok,
           Entry.dir "sub" true [Entry.file "b.md" [2] IOOutcome.ok]]).map
          fun f => LogEvent.warnExists f.2.1 f.1) :=
  c6_second_run_idempotent ["d"]
    [Entry.file "a.txt" [1] IOOutcome.ok,
     Entry.dir "sub" true [Entry.file "b.md" [2] IOOutcome.ok]] ⟨[], []⟩
    (by simp [allOk])

/-- C7: when the source path is not a directory, `main` aborts after logging
an error - the walker is never invoked and the filesystem is untouched;
otherwise the walker runs, and when the destination is missing it is first
created together with every missing parent, before the walk starts. -/
theorem c7_preconditions (srcIsDir : Bool) (srcName : String) (d : FPath) (rootOk : Bool)
    (children : List Entry) (fs0 : FileSystem) :
    (srcIsDir = false →
      main srcIsDir srcName d rootOk children fs0 =
        ⟨false, false, fs0, [LogEvent.errorSource]⟩) ∧
    (srcIsDir = true → (main srcIsDir srcName d rootOk children fs0).walked = true) ∧
    (srcIsDir = true → ¬ fsExists fs0 d →
      main srcIsDir srcName d rootOk children fs0 =
        ⟨true, true, (read_folder d srcName rootOk children (mkdirP fs0 d)).1,
          [LogEvent.infoCreateDest, LogEvent.customStart] ++
            (read_folder d srcName rootOk children (mkdirP fs0 d)).2 ++
            [LogEvent.customEnd]⟩ ∧
      (∀ q, q <+: d → q ∈ (mkdirP fs0 d).dirs)) := by
  refine ⟨?_, ?_, ?_⟩
  · intro h
    subst h
    simp [main]
  · intro h
    subst h
    by_cases hex : fsExists fs0 d
    · simp [main, hex]
    · simp [main, hex]
  · intro h hex
    subst h
    refine ⟨?_, ?_⟩
    · simp [main, hex]
    · intro q hq
      rw [mkdirP_dirs_mem]
      exact Or.inr hq

/-- C7, witness: with a missing source directory `main` only logs; with an
existing source and a missing destination it creates the destination and
walks. -/
theorem c7_preconditions_witness :
    main false "src" ["d"] true [] ⟨[], []⟩ = ⟨false, false, ⟨[], []⟩, [LogEvent.errorSource]⟩ ∧
    (main true "src" ["d"] true [] ⟨[], []⟩).walked = true ∧
    (main true "src" ["d"] true [] ⟨[], []⟩).destCreated = true :=
  ⟨(c7_preconditions false "src" ["d"] true [] ⟨[], []⟩).1 rfl,
   (c7_preconditions true "src" ["d"] true [] ⟨[], []⟩).2.1 rfl,
   by
    have h := ((c7_preconditions true "src" ["d"] true [] ⟨[], []⟩).2.2 rfl
      (by decide)).1
    rw [h]⟩

/-- C10, counterexample: when the destination lies under the source
directory (here source `src`, destination `src/out`), a full run creates a
new file at a path under the source directory, so the source tree does not
keep exactly the content and structure it had before the run. -/
theorem c10_counterexample :
    (["src"] : FPath) <+: ["src", "out", "txt", "a.txt"] ∧
    fsFile ⟨[(["src", "a.txt"], [7])], [["src"], ["src", "out"]]⟩
      ["src", "out", "txt", "a.txt"] = none ∧
    fsFile (runEntries ["src", "out"] [Entry.file "a.txt" [7] IOOutcome.ok]
        ⟨[(["src", "a.txt"], [7])], [["src"], ["src", "out"]]⟩).1
      ["src", "out", "txt", "a.txt"] = some [7] := by
  refine ⟨⟨["out", "txt", "a.txt"], rfl⟩, rfl, ?_⟩
  simp [runEntries, copy_file, copy_file_raw, pyTry, mkdirP, writeFile, fsExists, fsFile,
    lookupFS, extBucket, pathSuffix, rfindDot, lstripDot, addDir, List.inits]

/-- C10 (amended): provided the source and destination directories are
disjoint (neither lies under the other), a full run never touches any path
under the source directory: every file content and every directory that is
under the source root is exactly as before the run, for every tree and
every pattern of I/O failures. -/
theorem c10_source_unmodified (src d : FPath) (es : List Entry) (fs : FileSystem)
    (h1 : ¬ src <+: d) (h2 : ¬ d <+: src) :
    ∀ p, src <+: p →
      fsFile (runEntries d es fs).1 p = fsFile fs p ∧
      (p ∈ (runEntries d es fs).1.dirs ↔ p ∈ fs.dirs) := by
  obtain ⟨L, D, hL, hD, hxL, hqD⟩ := runEntries_growth d es fs
  intro p hp
  constructor
  · unfold fsFile
    rw [hL]
    apply lookupFS_append_not_mem
    intro hmem
    simp only [List.mem_map] at hmem
    obtain ⟨x, hxmem, hxp⟩ := hmem
    obtain ⟨b, m, hbm⟩ := hxL x hxmem
    have hdp : d <+: p := by
      rw [← hxp, hbm]
      exact ⟨[b, m], by simp⟩
    rcases pref_comparable src d p hp hdp with hcmp | hcmp
    · exact h1 hcmp
    · exact h2 hcmp
  · rw [hD]
    constructor
    · intro hmem
      rcases List.mem_append.mp hmem with hmem | hmem
      · exact hmem
      · obtain ⟨b, hb⟩ := hqD p hmem
        have hdb : d <+: d ++ [b] := ⟨[b], rfl⟩
        have hsrc : src <+: d ++ [b] := hp.trans hb
        rcases pref_comparable src d (d ++ [b]) hsrc hdb with hcmp | hcmp
        · exact absurd hcmp h1
        · exact absurd hcmp h2
    · intro hmem
      exact List.mem_append_left _ hmem

/-- C10, witness: with disjoint roots `s` and `d`, the source file at
`s/a.txt` and the directory `s` are untouched by a run that copies a file. -/
theorem c10_source_unmodified_witness :
    fsFile (runEntries ["d"] [Entry.file "a.txt" [1] IOOutcome.ok]
        ⟨[(["s", "a.txt"], [5])], [["s"]]⟩).1 ["s", "a.txt"] =
      fsFile ⟨[(["s", "a.txt"], [5])], [["s"]]⟩ ["s", "a.txt"] ∧
    (["s", "a.txt"] ∈ (runEntries ["d"] [Entry.file "a.txt" [1] IOOutcome.ok]
        ⟨[(["s", "a.txt"], [5])], [["s"]]⟩).1.dirs ↔
      ["s", "a.txt"] ∈ (⟨[(["s", "a.txt"], [5])], [["s"]]⟩ : FileSystem).dirs) :=
  c10_source_unmodified ["s"] ["d"] [Entry.file "a.txt" [1] IOOutcome.ok]
    ⟨[(["s", "a.txt"], [5])], [["s"]]⟩ (by decide) (by decide)
    ["s", "a.txt"] ⟨["a.txt"], rfl⟩

end SortFiles
